import Mathlib

/-!
Shallow embedding of the enron_search_test TF-IDF search engine (src/main.rs).

Modelling conventions:
* Rust `HashMap<K, V>` is modelled as an association list `List (K × V)`;
  the real hash map has unique keys, which appears here as `Nodup` hypotheses
  or lemmas on the key column where a claim needs it.
* Rust `BTreeMap<BigDecimal, String>` (a per-term ordered score-to-document
  mapping) is modelled as an association list kept sorted in strictly
  ascending key order; `btInsert` mirrors `BTreeMap::insert` (replacing the
  entry when the key is already present) and `popLast` mirrors
  `BTreeMap::pop_last` (removing the maximum key).
* The score type is a parameter `S` with a linear order.  `BigDecimal`
  values obtained by exact conversion from finite `f64` values are rational,
  so witnesses instantiate `S := ℚ`; the floating-point scoring pipeline
  (`f64` arithmetic with `ln` and `sqrt`) is idealised over the reals `ℝ`.
* The qp-trie is keyed by the raw UTF-8 bytes of a term.  Since UTF-8 is
  prefix-free per character, a byte sequence of one string is a prefix of the
  byte sequence of another exactly when its character sequence is; the trie is
  therefore modelled as an association list of terms with a character-level
  `isPrefixOf` test, and an insertion that replaces an existing key.
* File-system traversal, file decoding and printing are external
  collaborators; documents enter the model as already whitespace-split token
  lists, mirroring `split_whitespace` in `get_document_word_freq`.
-/

namespace EnronSearch

/-- Model of the lazily initialised PUNCTUATION_CHARS set from main.rs, given
by the code points of the 33 listed one-character strings, in source order
(the comma appears twice in the source vector; a set collapses it, and for
the membership test below the duplicate is irrelevant). -/
def PUNCTUATION_CHARS : List Char :=
  [33, 34, 35, 36, 37, 38, 39, 40, 41, 42, 43, 44, 59, 46, 47, 58, 44,
   60, 61, 62, 63, 64, 91, 92, 93, 94, 95, 96, 123, 124, 125, 126, 45].map Char.ofNat

/-- Model of the sanitisation applied to the query in search and to each
token in get_document_word_freq: lowercase, then drop punctuation
characters.  Lean's Char.toLower performs exactly the ASCII-range case
mapping, the fragment of Rust's to_lowercase relevant to the punctuation
set and to the claims. -/
def sanitize (s : String) : String :=
  ⟨(s.data.map Char.toLower).filter (fun c => !(PUNCTUATION_CHARS.contains c))⟩

/-- Byte-level test used by the qp-trie, stated on characters (UTF-8 is
prefix-free per character, so the two coincide). -/
def strIsPrefixOf (q w : String) : Bool :=
  q.data.isPrefixOf w.data

/-- Model of the per-term BTreeMap from exact score to document key. -/
abbrev BTMap (S : Type) := List (S × String)

/-- Model of the qp-trie from term to its ordered score map. -/
abbrev STrie (S : Type) := List (String × BTMap S)

/-- Model of BTreeMap::insert on the sorted association list: keys stay in
strictly ascending order, and inserting at an existing key replaces the
stored document (last insert wins the key). -/
def btInsert [LinearOrder S] (k : S) (v : String) : BTMap S → BTMap S
  | [] => [(k, v)]
  | (k1, v1) :: rest =>
    if k < k1 then (k, v) :: (k1, v1) :: rest
    else if k = k1 then (k, v) :: rest
    else (k1, v1) :: btInsert k v rest

/-- Model of BTreeMap::pop_last: remove and return the maximum-key entry,
the last one of the ascending association list. -/
def popLast (m : BTMap S) : Option ((S × String) × BTMap S) :=
  match m.getLast? with
  | none => none
  | some e => some (e, m.dropLast)

/-- Model of the loop `for _i in 1..10 { if let Some(..) = map.pop_last() .. }`
in search, generalised over the iteration count: pop up to n entries from
the maximum end, returning them in pop order together with the remaining
map. -/
def popTops : Nat → BTMap S → List (S × String) × BTMap S
  | 0, m => ([], m)
  | n + 1, m =>
    match popLast m with
    | none => ([], m)
    | some (e, m1) =>
      let p := popTops n m1
      (e :: p.1, p.2)

/-- Model of the iter_prefix_mut / flat_map candidate collection in search:
walk the trie, and for every term having the sanitised query as a byte
prefix pop its top 9 entries, emitting (term, document, score) candidates;
the returned trie reflects the mutation performed by pop_last. -/
def collectMatches [LinearOrder S] (q : String) : STrie S → List (String × String × S) × STrie S
  | [] => ([], [])
  | (w, m) :: rest =>
    let p := collectMatches q rest
    if strIsPrefixOf q w then
      let t9 := popTops 9 m
      (t9.1.map (fun e => (w, e.2, e.1)) ++ p.1, (w, t9.2) :: p.2)
    else
      (p.1, (w, m) :: p.2)

/-- Boolean form of the sort_by comparator in search: a compares
less-or-equal to b exactly when the Rust comparator does not return
Greater.  The comparator returns Greater when a is the exact query and b is
not, Less in the symmetric case, and otherwise compares scores. -/
def resultLE [LinearOrder S] (q : String) (a b : String × String × S) : Bool :=
  if a.1 = q ∧ b.1 ≠ q then false
  else if a.1 ≠ q ∧ b.1 = q then true
  else decide (a.2.2 ≤ b.2.2)

/-- Model of `matched_prefixes.sort_by(..); matched_prefixes.reverse();`:
a stable ascending sort by the comparator followed by a reversal of the
whole list. -/
def rankCandidates [LinearOrder S] (q : String) (cs : List (String × String × S)) :
    List (String × String × S) :=
  (cs.mergeSort (resultLE q)).reverse

/-- Outcome reported by search: the explicit no-matches signal, or the
ranked result triples that are printed. -/
inductive SearchOutcome (S : Type) where
  | noMatches : SearchOutcome S
  | results : List (String × String × S) → SearchOutcome S
deriving DecidableEq

/-- Length of the reported result sequence. -/
def SearchOutcome.resultCount : SearchOutcome S → Nat
  | .noMatches => 0
  | .results l => l.length

/-- Model of search in main.rs: sanitise the query, collect up to 9
candidates per matching term (mutating the per-term maps), sort by the
comparator, reverse, and report either the no-matches signal or the first
100 ranked results; the second component is the trie as left behind by
iter_prefix_mut / pop_last. -/
def search [LinearOrder S] (input : String) (t : STrie S) : SearchOutcome S × STrie S :=
  let sanitizedInput := sanitize input
  let p := collectMatches sanitizedInput t
  let ranked := rankCandidates sanitizedInput p.1
  (if ranked.isEmpty then .noMatches else .results (ranked.take 100), p.2)

/-- Model of `acc.entry(word).and_modify(insert).or_insert(singleton)` in
build_search_trie: record (score, doc) under the word, creating the word
entry when absent. -/
def insertWordScore [LinearOrder S] (w : String) (k : S) (d : String) :
    List (String × BTMap S) → List (String × BTMap S)
  | [] => [(w, [(k, d)])]
  | (w1, m) :: rest =>
    if w1 = w then (w1, btInsert k d m) :: rest
    else (w1, m) :: insertWordScore w k d rest

/-- Model of the fold in build_search_trie that inverts the per-document
score vectors into a word-to-ranked-documents map. -/
def buildWordRankings [LinearOrder S] (tfIdf : List (String × List (String × S))) :
    List (String × BTMap S) :=
  tfIdf.foldl (fun acc dv => dv.2.foldl (fun a ws => insertWordScore ws.1 ws.2 dv.1 a) acc) []

/-- Model of Trie::insert: replace the stored map when the term is already
present, otherwise add the new term. -/
def trieInsert [LinearOrder S] (t : STrie S) (w : String) (m : BTMap S) : STrie S :=
  match t with
  | [] => [(w, m)]
  | (w1, m1) :: rest => if w1 = w then (w1, m) :: rest else (w1, m1) :: trieInsert rest w m

/-- Model of build_search_trie: fold the inverted word map into the trie. -/
def build_search_trie [LinearOrder S] (tfIdf : List (String × List (String × S))) : STrie S :=
  (buildWordRankings tfIdf).foldl (fun t wm => trieInsert t wm.1 wm.2) []

/-- Model of `word_count.entry(word).and_modify(add one).or_insert(1)` used
both by get_document_word_freq (counting tokens) and by
calc_inverse_document_freq (counting documents per term). -/
def bump : List (String × Nat) → String → List (String × Nat)
  | [], w => [(w, 1)]
  | (k, v) :: rest, w => if k = w then (k, v + 1) :: rest else (k, v) :: bump rest w

/-- Model of the token-counting loop of get_document_word_freq on one
document, applied to the whitespace-split raw tokens of the file: sanitise
each token and count occurrences. -/
def countTokens (tokens : List String) : List (String × Nat) :=
  tokens.foldl (fun acc w => bump acc (sanitize w)) []

/-- Model of get_document_word_freq: file reading and whitespace splitting
are external collaborators, so a document arrives as its name together with
its raw token list. -/
def get_document_word_freq (docs : List (String × List String)) :
    List (String × List (String × Nat)) :=
  docs.map (fun d => (d.1, countTokens d.2))

/-- Sum of the stored counts of one document, `word_freq.values().sum()` in
calc_tf_idf. -/
def totalCount (wordFreq : List (String × Nat)) : Nat :=
  (wordFreq.map Prod.snd).sum

/-- Model of the fold in calc_inverse_document_freq that counts, for every
term, how many documents of the corpus carry it (one bump per key
occurrence in a document map). -/
def docFrequency (corpus : List (String × List (String × Nat))) : List (String × Nat) :=
  corpus.foldl (fun acc doc => doc.2.foldl (fun a wc => bump a wc.1) acc) []

/-- Model of calc_inverse_document_freq: per counted term the smoothed
weight ln((N + 1) / (count + 1)) + 1 with N the number of documents. -/
noncomputable def calc_inverse_document_freq
    (corpus : List (String × List (String × Nat))) : List (String × ℝ) :=
  (docFrequency corpus).map
    (fun wc => (wc.1, Real.log ((corpus.length + 1) / ((wc.2 : ℝ) + 1)) + 1))

/-- Modelled from the spec (section 4.3): documentFrequency of a term is the
number of distinct documents containing the term at least once.  This is
the specification-side count that claim C3 compares against the count
accumulated by the code's fold. -/
def documentFrequency (w : String) (corpus : List (String × List (String × Nat))) : Nat :=
  corpus.countP (fun doc => decide (w ∈ doc.2.map Prod.fst))

/-- Model of the term-frequency map built inside calc_tf_idf: every count
divided by the document's total count. -/
noncomputable def termFrequency (wordFreq : List (String × Nat)) : List (String × ℝ) :=
  wordFreq.map (fun wc => (wc.1, (wc.2 : ℝ) / (totalCount wordFreq : ℝ)))

/-- Model of `inverse_document_frequency.get(word).unwrap_or(&0.0)`. -/
noncomputable def lookupIdf (idf : List (String × ℝ)) (w : String) : ℝ :=
  (idf.lookup w).getD 0

/-- Sum of squared component values of a score vector, the quantity under
the square root in l2_normalize. -/
def sumSquares (v : List (String × ℝ)) : ℝ :=
  (v.map (fun kv => kv.2 * kv.2)).sum

/-- Model of l2_normalize: divide every component by the Euclidean norm of
the vector. -/
noncomputable def l2_normalize (tfId : List (String × ℝ)) : List (String × ℝ) :=
  tfId.map (fun kv => (kv.1, kv.2 / Real.sqrt (sumSquares tfId)))

/-- Model of calc_tf_idf: per document, multiply the term frequencies by
the corpus IDF weights (unknown terms weigh 0) and L2-normalize the
resulting vector. -/
noncomputable def calc_tf_idf (documentWordFreq : List (String × List (String × Nat)))
    (idf : List (String × ℝ)) : List (String × List (String × ℝ)) :=
  documentWordFreq.map (fun doc =>
    (doc.1, l2_normalize ((termFrequency doc.2).map
      (fun wt => (wt.1, wt.2 * lookupIdf idf wt.1)))))

/-- Composition of the whole pipeline of main: token counting, IDF, TF-IDF
with L2 normalization, and index construction. -/
noncomputable def pipelineIndex (docs : List (String × List String)) : STrie ℝ :=
  let dwf := get_document_word_freq docs
  build_search_trie (calc_tf_idf dwf (calc_inverse_document_freq dwf))

/-- Relation asserted for neighbouring output positions: either the earlier
result matches the query exactly while the later does not, or both sides
have the same exactness and the earlier score is at least the later one. -/
def rankedAbove [LinearOrder S] (q : String) (a b : String × String × S) : Prop :=
  (a.1 = q ∧ b.1 ≠ q) ∨ ((a.1 = q ↔ b.1 = q) ∧ b.2.2 ≤ a.2.2)

/-- Well-formedness of a per-term score map: keys strictly ascending, as a
BTreeMap stores them. -/
abbrev mapSorted [LinearOrder S] (m : BTMap S) : Prop :=
  m.Pairwise (fun a b => a.1 < b.1)

/-! Lemmas about the character-level case mapping. -/

/-- Packing a scalar value below the surrogate range is faithful. -/
theorem toNat_ofNat_of_lt {n : Nat} (h : n < 55296) : (Char.ofNat n).toNat = n := by
  rw [Char.ofNat, dif_pos (Or.inl h)]
  simp [Char.ofNatAux, Char.toNat]
  rfl

/-- Lowercasing a character twice is the same as lowercasing it once. -/
theorem toLower_toLower (c : Char) : c.toLower.toLower = c.toLower := by
  simp only [Char.toLower]
  by_cases h : c.toNat ≥ 65 ∧ c.toNat ≤ 90
  · rw [if_pos h]
    have h1 : (Char.ofNat (c.toNat + 32)).toNat = c.toNat + 32 := toNat_ofNat_of_lt (by omega)
    rw [if_neg (by rw [h1]; omega)]
  · rw [if_neg h, if_neg h]

/-- C8: the normalization applied to queries and tokens, lowercasing every
character and then removing every character of the fixed punctuation set,
is idempotent: sanitising an already-sanitised string returns it
unchanged. -/
theorem sanitize_idempotent (s : String) : sanitize (sanitize s) = sanitize s := by
  unfold sanitize
  apply congrArg
  show (((s.data.map Char.toLower).filter _).map Char.toLower).filter _ = _
  have hm : ((s.data.map Char.toLower).filter
        (fun c => !(PUNCTUATION_CHARS.contains c))).map Char.toLower
      = (s.data.map Char.toLower).filter (fun c => !(PUNCTUATION_CHARS.contains c)) := by
    have hfix : ∀ a ∈ (s.data.map Char.toLower).filter
        (fun c => !(PUNCTUATION_CHARS.contains c)), Char.toLower a = a := by
      intro a ha
      obtain ⟨y, _, rfl⟩ := List.mem_map.mp (List.mem_of_mem_filter ha)
      exact toLower_toLower y
    calc ((s.data.map Char.toLower).filter
          (fun c => !(PUNCTUATION_CHARS.contains c))).map Char.toLower
        = ((s.data.map Char.toLower).filter
          (fun c => !(PUNCTUATION_CHARS.contains c))).map id := List.map_congr_left hfix
      _ = _ := List.map_id _
  rw [hm]
  exact List.filter_eq_self.mpr (fun a ha => (List.mem_filter.mp ha).2)

/-! Structure of pop_last iteration and the mutation performed by search. -/

/-- Popping n entries from the maximum end of the ascending association
list returns its last min(n, length) entries in reverse order and keeps the
initial segment. -/
theorem popTops_eq (n : Nat) : ∀ m : BTMap S,
    popTops n m = ((m.drop (m.length - n)).reverse, m.take (m.length - n)) := by
  induction n with
  | zero => intro m; simp [popTops]
  | succ n ih =>
    intro m
    rcases List.eq_nil_or_concat m with rfl | ⟨l, a, rfl⟩
    · simp [popTops, popLast]
    · have hsub : (l ++ [a]).length - (n + 1) = l.length - n := by simp
      have hle : l.length - n ≤ l.length := Nat.sub_le _ _
      simp only [popTops, popLast, List.concat_eq_append, List.getLast?_concat,
        List.dropLast_concat, ih l, hsub]
      rw [List.drop_append_of_le_length hle, List.take_append_of_le_length hle]
      simp

/-- The trie left behind by the candidate collection: matching terms keep
only what nine pops leave, non-matching terms are untouched. -/
theorem collectMatches_snd [LinearOrder S] (q : String) : ∀ t : STrie S,
    (collectMatches q t).2
      = t.map (fun wm => if strIsPrefixOf q wm.1 then (wm.1, (popTops 9 wm.2).2) else wm) := by
  intro t
  induction t with
  | nil => rfl
  | cons wm rest ih =>
    obtain ⟨w, m⟩ := wm
    simp only [collectMatches, List.map_cons]
    by_cases h : strIsPrefixOf q w
    · simp [h, ih]
    · simp [h, ih]

/-- C2 (amended): running a query does mutate the inverted index.  Every
term having the sanitised query as a prefix loses its top min(9, size)
entries, keeping only the size - 9 lowest-score entries, while every other
term is unchanged. -/
theorem search_mutates_index [LinearOrder S] (input : String) (t : STrie S) :
    (search input t).2 = t.map (fun wm =>
      if strIsPrefixOf (sanitize input) wm.1
      then (wm.1, wm.2.take (wm.2.length - 9)) else wm) := by
  have hsnd : (search input t).2 = (collectMatches (sanitize input) t).2 := rfl
  rw [hsnd, collectMatches_snd]
  apply List.map_congr_left
  intro wm _
  by_cases hp : strIsPrefixOf (sanitize input) wm.1
  · simp [hp, popTops_eq]
  · simp [hp]

/-- C2 (counterexample): on the index holding the single term a with one
scored document, querying a changes the index: the per-term mapping is
drained, so the index after the query differs from the index before it. -/
theorem search_mutates_counterexample :
    (search "a" [("a", [((1 : ℚ), "d")])]).2 ≠ [("a", [((1 : ℚ), "d")])] := by decide

/-! Ordering produced by the sort-then-reverse ranking of search. -/

/-- The comparator of search is total. -/
theorem resultLE_total [LinearOrder S] (q : String) (a b : String × String × S) :
    resultLE q a b || resultLE q b a := by
  by_cases ha : a.1 = q <;> by_cases hb : b.1 = q <;>
    rcases le_total a.2.2 b.2.2 with h | h <;>
    simp [resultLE, ha, hb, h]

/-- The comparator of search is transitive. -/
theorem resultLE_trans [LinearOrder S] (q : String) (a b c : String × String × S)
    (h1 : resultLE q a b) (h2 : resultLE q b c) : resultLE q a c := by
  by_cases ha : a.1 = q <;> by_cases hb : b.1 = q <;> by_cases hc : c.1 = q <;>
    simp_all [resultLE] <;> exact le_trans h1 h2

/-- Reading the comparator backwards yields the asserted ranking
relation. -/
theorem resultLE_flip_rankedAbove [LinearOrder S] (q : String)
    (a b : String × String × S) (h : resultLE q b a) : rankedAbove q a b := by
  by_cases ha : a.1 = q <;> by_cases hb : b.1 = q <;>
    simp_all [resultLE, rankedAbove]

/-- C1: the ranked sequence of search is a permutation of the collected
candidates in which every exact-query result precedes every result of a
merely prefix-matching term regardless of score, scores are descending
inside each of the two groups, the reported output is its 100-entry
truncation, and that truncation keeps the same ordering property. -/
theorem search_ranking_order [LinearOrder S] (input : String) (t : STrie S) :
    (rankCandidates (sanitize input) (collectMatches (sanitize input) t).1).Perm
        (collectMatches (sanitize input) t).1
    ∧ (rankCandidates (sanitize input) (collectMatches (sanitize input) t).1).Pairwise
        (rankedAbove (sanitize input))
    ∧ (search input t).1 =
        (if (rankCandidates (sanitize input) (collectMatches (sanitize input) t).1).isEmpty
         then SearchOutcome.noMatches
         else SearchOutcome.results
           ((rankCandidates (sanitize input) (collectMatches (sanitize input) t).1).take 100))
    ∧ ((rankCandidates (sanitize input) (collectMatches (sanitize input) t).1).take 100).Pairwise
        (rankedAbove (sanitize input)) := by
  set q := sanitize input with hq
  set cs := (collectMatches q t).1 with hcs
  have hsorted : (cs.mergeSort (resultLE q)).Pairwise (resultLE q · ·) :=
    List.sorted_mergeSort (fun a b c => resultLE_trans q a b c)
      (fun a b => resultLE_total q a b) cs
  have hpair : (rankCandidates q cs).Pairwise (rankedAbove q) := by
    have hrev : ((cs.mergeSort (resultLE q)).reverse).Pairwise
        (fun a b => resultLE q b a) := List.pairwise_reverse.mpr hsorted
    exact hrev.imp (fun h => resultLE_flip_rankedAbove q _ _ h)
  refine ⟨?_, hpair, rfl, hpair.sublist (List.take_sublist _ _)⟩
  exact (List.reverse_perm _).trans (List.mergeSort_perm cs _)

/-! No-matches behaviour. -/

/-- When no trie term has the query as a prefix, the candidate list is
empty. -/
theorem collectMatches_fst_eq_nil [LinearOrder S] (q : String) :
    ∀ t : STrie S, (∀ wm ∈ t, ¬ strIsPrefixOf q wm.1) → (collectMatches q t).1 = [] := by
  intro t
  induction t with
  | nil => intro _; rfl
  | cons wm rest ih =>
    intro h
    obtain ⟨w, m⟩ := wm
    have hw : ¬ strIsPrefixOf q w := h (w, m) (List.mem_cons_self _ _)
    simp only [collectMatches, hw]
    simp only [Bool.false_eq_true, if_false]
    exact ih (fun x hx => h x (List.mem_cons_of_mem _ hx))

/-- C9: an empty match set is a normal terminal state.  Building the index
over an empty corpus yields the empty trie, and a query whose sanitised
form is a prefix of no indexed term is answered with the explicit
no-matches signal rather than a failure. -/
theorem empty_matches_terminal [LinearOrder S] :
    (build_search_trie ([] : List (String × List (String × S))) = ([] : STrie S))
    ∧ ∀ (input : String) (t : STrie S),
        (∀ wm ∈ t, ¬ strIsPrefixOf (sanitize input) wm.1) →
        (search input t).1 = SearchOutcome.noMatches := by
  refine ⟨rfl, ?_⟩
  intro input t h
  have hc : (collectMatches (sanitize input) t).1 = [] :=
    collectMatches_fst_eq_nil (sanitize input) t h
  simp only [search, rankCandidates, hc, List.mergeSort_nil, List.reverse_nil,
    List.isEmpty_nil, if_true]

/-- C9 (witness): a concrete query sharing no prefix with the only indexed
term is answered with the no-matches signal. -/
theorem empty_matches_terminal_witness :
    (∀ wm ∈ [("banana", [((1 : ℚ), "d")])], ¬ strIsPrefixOf (sanitize "zzz") wm.1)
    ∧ (search "zzz" [("banana", [((1 : ℚ), "d")])]).1 = SearchOutcome.noMatches :=
  ⟨by decide, empty_matches_terminal.2 "zzz" [("banana", [((1 : ℚ), "d")])] (by decide)⟩

/-! Bounds on candidate and result counts. -/

/-- Every collected candidate carries a term of the trie. -/
theorem collectMatches_word_mem [LinearOrder S] (q : String) :
    ∀ t : STrie S, ∀ r ∈ (collectMatches q t).1, r.1 ∈ t.map Prod.fst := by
  intro t
  induction t with
  | nil => intro r hr; cases hr
  | cons wm rest ih =>
    intro r hr
    obtain ⟨w, m⟩ := wm
    by_cases h : strIsPrefixOf q w
    · simp only [collectMatches, h, if_true] at hr
      rcases List.mem_append.mp hr with hb | hrest
      · obtain ⟨e, _, rfl⟩ := List.mem_map.mp hb
        simp
      · exact List.mem_cons_of_mem _ (ih r hrest)
    · simp only [collectMatches, h] at hr
      simp only [Bool.false_eq_true, if_false] at hr
      exact List.mem_cons_of_mem _ (ih r hr)

/-- Candidate block contributed by the head term of the trie. -/
theorem collectMatches_fst_cons [LinearOrder S] (q w : String) (m : BTMap S)
    (rest : STrie S) :
    (collectMatches q ((w, m) :: rest)).1
      = (if strIsPrefixOf q w then (popTops 9 m).1.map (fun e => (w, e.2, e.1)) else [])
        ++ (collectMatches q rest).1 := by
  by_cases h : strIsPrefixOf q w <;> simp [collectMatches, h]

/-- With distinct trie terms, one term contributes at most nine
candidates. -/
theorem collectMatches_countP_le [LinearOrder S] (q w : String) :
    ∀ t : STrie S, (t.map Prod.fst).Nodup →
      ((collectMatches q t).1.countP (fun r => decide (r.1 = w))) ≤ 9 := by
  intro t
  induction t with
  | nil => intro _; simp [collectMatches]
  | cons wm rest ih =>
    intro hnd
    obtain ⟨w1, m1⟩ := wm
    simp only [List.map_cons, List.nodup_cons] at hnd
    obtain ⟨hw1, hnd1⟩ := hnd
    rw [collectMatches_fst_cons, List.countP_append]
    have hlen : ((popTops 9 m1).1.map (fun e => (w1, e.2, e.1))).length ≤ 9 := by
      rw [List.length_map, popTops_eq]
      simp only [List.length_reverse, List.length_drop]
      omega
    by_cases hww : w = w1
    · subst hww
      have hblock := le_trans
        (List.countP_le_length (fun r : String × String × S => decide (r.1 = w))) hlen
      have hrest : ((collectMatches q rest).1.countP
          (fun r : String × String × S => decide (r.1 = w))) = 0 := by
        apply List.countP_eq_zero.mpr
        intro r hr
        have hmem := collectMatches_word_mem q rest r hr
        simp only [decide_eq_true_eq]
        intro hrw
        exact hw1 (by rw [← hrw]; exact hmem)
      split
      · omega
      · simp only [List.countP_nil]
        omega
    · have hblock : ((popTops 9 m1).1.map (fun e => (w1, e.2, e.1))).countP
          (fun r => decide (r.1 = w)) = 0 := by
        apply List.countP_eq_zero.mpr
        intro r hr
        obtain ⟨e, _, rfl⟩ := List.mem_map.mp hr
        simp only [decide_eq_true_eq]
        exact fun hc => hww hc.symm
      have hr9 := ih hnd1
      split
      · omega
      · simp only [List.countP_nil]
        omega

/-- C5: nine pops per matching term return exactly its min(9, size) maximum
entries, in descending position order, every remaining entry scores no
higher than any popped one, a term of the index contributes at most nine
candidates, and the reported result sequence never exceeds 100 entries. -/
theorem search_bounds [LinearOrder S] :
    (∀ m : BTMap S, (popTops 9 m).1.length = min 9 m.length)
    ∧ (∀ m : BTMap S, (popTops 9 m).1 = (m.drop (m.length - 9)).reverse)
    ∧ (∀ m : BTMap S, mapSorted m →
        ∀ p ∈ (popTops 9 m).1, ∀ r ∈ (popTops 9 m).2, r.1 ≤ p.1)
    ∧ (∀ (q : String) (t : STrie S) (w : String), (t.map Prod.fst).Nodup →
        ((collectMatches q t).1.countP (fun r => decide (r.1 = w))) ≤ 9)
    ∧ (∀ (input : String) (t : STrie S), (search input t).1.resultCount ≤ 100) := by
  refine ⟨?_, ?_, ?_, ?_, ?_⟩
  · intro m
    rw [popTops_eq]
    simp only [List.length_reverse, List.length_drop]
    omega
  · intro m
    rw [popTops_eq]
  · intro m hs p hp r hr
    rw [popTops_eq] at hp hr
    simp only at hp hr
    have hp2 : p ∈ m.drop (m.length - 9) := List.mem_reverse.mp hp
    have hm : (m.take (m.length - 9) ++ m.drop (m.length - 9)).Pairwise
        (fun a b => a.1 < b.1) := by
      rw [List.take_append_drop]
      exact hs
    obtain ⟨-, -, hcross⟩ := List.pairwise_append.mp hm
    exact (hcross r hr p hp2).le
  · intro q t w hnd
    exact collectMatches_countP_le q w t hnd
  · intro input t
    simp only [search]
    split
    · simp [SearchOutcome.resultCount]
    · simp only [SearchOutcome.resultCount, List.length_take]
      omega

/-- C5 (witness): the sortedness and distinctness hypotheses hold on a
concrete two-entry map and one-term trie, and the corresponding bounds
follow by applying the theorem there. -/
theorem search_bounds_witness :
    mapSorted [((1 : ℚ), "d1"), ((2 : ℚ), "d2")]
    ∧ (∀ p ∈ (popTops 9 [((1 : ℚ), "d1"), ((2 : ℚ), "d2")]).1,
        ∀ r ∈ (popTops 9 [((1 : ℚ), "d1"), ((2 : ℚ), "d2")]).2, r.1 ≤ p.1)
    ∧ (([("apple", [((1 : ℚ), "d1")])].map Prod.fst).Nodup)
    ∧ ((collectMatches "ap" [("apple", [((1 : ℚ), "d1")])]).1.countP
        (fun r => decide (r.1 = "apple"))) ≤ 9 :=
  ⟨by decide, search_bounds.2.2.1 _ (by decide),
   by decide, search_bounds.2.2.2.1 "ap" _ "apple" (by decide)⟩

/-! Invariants of index construction. -/

/-- Entries of btInsert come from the inserted pair or the old map. -/
theorem mem_btInsert [LinearOrder S] (k : S) (v : String) :
    ∀ m : BTMap S, ∀ p ∈ btInsert k v m, p = (k, v) ∨ p ∈ m := by
  intro m
  induction m with
  | nil => intro p hp; simpa [btInsert] using hp
  | cons e rest ih =>
    intro p hp
    obtain ⟨k1, v1⟩ := e
    by_cases h1 : k < k1
    · rw [btInsert, if_pos h1] at hp
      rcases List.mem_cons.mp hp with rfl | hp
      · exact Or.inl rfl
      · exact Or.inr hp
    · by_cases h2 : k = k1
      · rw [btInsert, if_neg h1, if_pos h2] at hp
        rcases List.mem_cons.mp hp with rfl | hp
        · exact Or.inl rfl
        · exact Or.inr (List.mem_cons_of_mem _ hp)
      · rw [btInsert, if_neg h1, if_neg h2] at hp
        rcases List.mem_cons.mp hp with rfl | hp
        · exact Or.inr (List.mem_cons_self _ _)
        · rcases ih p hp with h | h
          · exact Or.inl h
          · exact Or.inr (List.mem_cons_of_mem _ h)

/-- Keys of btInsert come from the inserted key or the old keys. -/
theorem keys_btInsert [LinearOrder S] (k : S) (v : String) (m : BTMap S) :
    ∀ x ∈ (btInsert k v m).map Prod.fst, x = k ∨ x ∈ m.map Prod.fst := by
  intro x hx
  obtain ⟨p, hp, rfl⟩ := List.mem_map.mp hx
  rcases mem_btInsert k v m p hp with rfl | hp2
  · exact Or.inl rfl
  · exact Or.inr (List.mem_map_of_mem _ hp2)

/-- btInsert keeps the keys strictly ascending: replacing at an equal key
or splicing at the ordered position preserves the BTreeMap shape. -/
theorem btInsert_sorted [LinearOrder S] (k : S) (v : String) :
    ∀ m : BTMap S, mapSorted m → mapSorted (btInsert k v m) := by
  intro m
  induction m with
  | nil => intro _; simp [btInsert, mapSorted]
  | cons e rest ih =>
    intro hs
    obtain ⟨k1, v1⟩ := e
    rw [mapSorted, List.pairwise_cons] at hs
    obtain ⟨hall, hrest⟩ := hs
    by_cases h1 : k < k1
    · rw [mapSorted, btInsert, if_pos h1, List.pairwise_cons]
      refine ⟨?_, ?_⟩
      · intro p hp
        rcases List.mem_cons.mp hp with rfl | hp
        · exact h1
        · exact lt_trans h1 (hall p hp)
      · rw [List.pairwise_cons]
        exact ⟨hall, hrest⟩
    · by_cases h2 : k = k1
      · rw [mapSorted, btInsert, if_neg h1, if_pos h2, List.pairwise_cons]
        subst h2
        exact ⟨hall, hrest⟩
      · rw [mapSorted, btInsert, if_neg h1, if_neg h2, List.pairwise_cons]
        refine ⟨?_, ih hrest⟩
        intro p hp
        rcases mem_btInsert k v rest p hp with rfl | hp2
        · exact lt_of_le_of_ne (not_lt.mp h1) (Ne.symm h2)
        · exact hall p hp2

/-- Every map stored by insertWordScore is sorted when the accumulator's
maps are. -/
theorem insertWordScore_sorted [LinearOrder S] (w : String) (k : S) (d : String) :
    ∀ acc : List (String × BTMap S), (∀ wm ∈ acc, mapSorted wm.2) →
      ∀ wm ∈ insertWordScore w k d acc, mapSorted wm.2 := by
  intro acc
  induction acc with
  | nil =>
    intro _ wm hwm
    simp only [insertWordScore, List.mem_singleton] at hwm
    subst hwm
    simp [mapSorted]
  | cons e rest ih =>
    intro hall wm hwm
    obtain ⟨w1, m⟩ := e
    by_cases h : w1 = w
    · rw [insertWordScore, if_pos h] at hwm
      rcases List.mem_cons.mp hwm with rfl | hwm
      · exact btInsert_sorted k d m (hall (w1, m) (List.mem_cons_self _ _))
      · exact hall wm (List.mem_cons_of_mem _ hwm)
    · rw [insertWordScore, if_neg h] at hwm
      rcases List.mem_cons.mp hwm with rfl | hwm
      · exact hall _ (List.mem_cons_self _ _)
      · exact ih (fun x hx => hall x (List.mem_cons_of_mem _ hx)) wm hwm

/-- Every map accumulated over one document's score vector is sorted. -/
theorem foldInsert_sorted [LinearOrder S] (d : String) :
    ∀ (ws : List (String × S)) (acc : List (String × BTMap S)),
      (∀ wm ∈ acc, mapSorted wm.2) →
      ∀ wm ∈ ws.foldl (fun a p => insertWordScore p.1 p.2 d a) acc, mapSorted wm.2 := by
  intro ws
  induction ws with
  | nil => intro acc h wm hwm; exact h wm hwm
  | cons p rest ih =>
    intro acc h wm hwm
    exact ih (insertWordScore p.1 p.2 d acc)
      (insertWordScore_sorted p.1 p.2 d acc h) wm hwm

/-- Every map of the inverted word structure is sorted. -/
theorem buildWordRankings_sorted [LinearOrder S]
    (tfIdf : List (String × List (String × S))) :
    ∀ wm ∈ buildWordRankings tfIdf, mapSorted wm.2 := by
  rw [buildWordRankings]
  generalize hacc : ([] : List (String × BTMap S)) = acc
  have hbase : ∀ wm ∈ acc, mapSorted wm.2 := by
    subst hacc
    intro wm hwm
    cases hwm
  clear hacc
  induction tfIdf generalizing acc with
  | nil => exact hbase
  | cons dv rest ih =>
    simp only [List.foldl_cons]
    exact ih _ (foldInsert_sorted dv.1 dv.2 acc hbase)

/-- Entries of trieInsert are the new pair or old entries. -/
theorem mem_trieInsert [LinearOrder S] (w : String) (m : BTMap S) :
    ∀ t : STrie S, ∀ wm ∈ trieInsert t w m, wm = (w, m) ∨ wm ∈ t := by
  intro t
  induction t with
  | nil => intro wm hwm; simpa [trieInsert] using hwm
  | cons e rest ih =>
    intro wm hwm
    obtain ⟨w1, m1⟩ := e
    by_cases h : w1 = w
    · rw [trieInsert, if_pos h] at hwm
      rcases List.mem_cons.mp hwm with rfl | hwm
      · subst h; exact Or.inl rfl
      · exact Or.inr (List.mem_cons_of_mem _ hwm)
    · rw [trieInsert, if_neg h] at hwm
      rcases List.mem_cons.mp hwm with rfl | hwm
      · exact Or.inr (List.mem_cons_self _ _)
      · rcases ih wm hwm with h2 | h2
        · exact Or.inl h2
        · exact Or.inr (List.mem_cons_of_mem _ h2)

/-- Entries of a trieInsert fold are entries of the accumulator or of the
inserted list. -/
theorem foldTrieInsert_mem [LinearOrder S] :
    ∀ (l : List (String × BTMap S)) (acc : STrie S),
      ∀ wm ∈ l.foldl (fun t p => trieInsert t p.1 p.2) acc, wm ∈ acc ∨ wm ∈ l := by
  intro l
  induction l with
  | nil => intro acc wm hwm; exact Or.inl hwm
  | cons e rest ih =>
    intro acc wm hwm
    simp only [List.foldl_cons] at hwm
    rcases ih (trieInsert acc e.1 e.2) wm hwm with hacc | hrest
    · rcases mem_trieInsert e.1 e.2 acc wm hacc with rfl | h
      · exact Or.inr (List.mem_cons_self _ _)
      · exact Or.inl h
    · exact Or.inr (List.mem_cons_of_mem _ hrest)

/-- Every map of the built trie is one of the inverted structure's maps. -/
theorem build_search_trie_mem [LinearOrder S]
    (tfIdf : List (String × List (String × S))) :
    ∀ wm ∈ build_search_trie tfIdf, wm ∈ buildWordRankings tfIdf := by
  intro wm hwm
  rcases foldTrieInsert_mem (buildWordRankings tfIdf) [] wm hwm with h | h
  · cases h
  · exact h

/-- Strictly ascending keys are distinct. -/
theorem mapSorted_keys_nodup [LinearOrder S] (m : BTMap S) (h : mapSorted m) :
    (m.map Prod.fst).Nodup :=
  List.pairwise_map.mpr (h.imp (fun hlt => ne_of_lt hlt))

/-- Building from two one-term documents stores one trie entry whose map is
the second insertion applied after the first. -/
theorem build_two_docs [LinearOrder S] (d1 d2 w : String) (s1 s2 : S) :
    build_search_trie [(d1, [(w, s1)]), (d2, [(w, s2)])]
      = [(w, btInsert s2 d2 [(s1, d1)])] := by
  simp [build_search_trie, buildWordRankings, insertWordScore, trieInsert]

/-- C4: when one term is fed from two documents, distinct scores coexist as
two entries of the shared ordered mapping, exactly equal scores leave a
single entry won by the later insertion, and no per-term mapping of a built
index ever carries two entries with the same score key. -/
theorem build_score_collision [LinearOrder S] (d1 d2 w : String) (s1 s2 : S)
    (_hd : d1 ≠ d2) :
    (s1 ≠ s2 → ∃ m, build_search_trie [(d1, [(w, s1)]), (d2, [(w, s2)])] = [(w, m)]
        ∧ (s1, d1) ∈ m ∧ (s2, d2) ∈ m)
    ∧ (s1 = s2 → build_search_trie [(d1, [(w, s1)]), (d2, [(w, s2)])] = [(w, [(s2, d2)])])
    ∧ ∀ (tfIdf : List (String × List (String × S))) (w2 : String) (m : BTMap S),
        (w2, m) ∈ build_search_trie tfIdf → (m.map Prod.fst).Nodup := by
  refine ⟨?_, ?_, ?_⟩
  · intro hne
    refine ⟨btInsert s2 d2 [(s1, d1)], build_two_docs d1 d2 w s1 s2, ?_⟩
    rcases lt_trichotomy s2 s1 with h | h | h
    · rw [btInsert, if_pos h]
      simp
    · exact absurd h.symm hne
    · rw [btInsert, if_neg (not_lt.mpr h.le), if_neg (ne_of_gt h)]
      simp [btInsert]
  · intro heq
    subst heq
    rw [build_two_docs, btInsert, if_neg (lt_irrefl s1), if_pos rfl]
  · intro tfIdf w2 m hm
    exact mapSorted_keys_nodup m
      (buildWordRankings_sorted tfIdf (w2, m) (build_search_trie_mem tfIdf _ hm))

/-- C4 (witness): with rational scores 1 and 2 from documents d1 and d2
both entries coexist, and with the equal score 1 from both documents only
the later document survives under the single key. -/
theorem build_score_collision_witness :
    (("d1" : String) ≠ "d2")
    ∧ (∃ m, build_search_trie [("d1", [("w", (1 : ℚ))]), ("d2", [("w", (2 : ℚ))])]
        = [("w", m)] ∧ (((1 : ℚ), "d1") ∈ m ∧ ((2 : ℚ), "d2") ∈ m))
    ∧ build_search_trie [("d1", [("w", (1 : ℚ))]), ("d2", [("w", (1 : ℚ))])]
        = [("w", [((1 : ℚ), "d2")])] :=
  ⟨by decide,
   (by
      obtain ⟨m, hm, h1, h2⟩ :=
        (build_score_collision "d1" "d2" "w" (1 : ℚ) 2 (by decide)).1 (by decide)
      exact ⟨m, hm, h1, h2⟩),
   (build_score_collision "d1" "d2" "w" (1 : ℚ) 1 (by decide)).2.1 rfl⟩

/-! Numeric properties of the scoring pipeline. -/

/-- A sum of squared components is nonnegative. -/
theorem sumSquares_nonneg (v : List (String × ℝ)) : 0 ≤ sumSquares v := by
  apply List.sum_nonneg
  intro x hx
  obtain ⟨kv, _, rfl⟩ := List.mem_map.mp hx
  exact mul_self_nonneg kv.2

/-- A vector with a nonzero component has positive squared norm. -/
theorem sumSquares_pos (v : List (String × ℝ)) (h : ∃ p ∈ v, p.2 ≠ 0) :
    0 < sumSquares v := by
  obtain ⟨p, hp, hne⟩ := h
  have hmem : p.2 * p.2 ∈ v.map (fun kv => kv.2 * kv.2) :=
    List.mem_map.mpr ⟨p, hp, rfl⟩
  have hle : p.2 * p.2 ≤ sumSquares v := by
    apply List.single_le_sum _ _ hmem
    intro x hx
    obtain ⟨kv, _, rfl⟩ := List.mem_map.mp hx
    exact mul_self_nonneg kv.2
  exact lt_of_lt_of_le (mul_self_pos.mpr hne) hle

/-- C6: for every document whose raw TF-IDF vector has a nonzero component,
the vector produced by l2_normalize has its squared components summing to
exactly 1. -/
theorem l2_normalize_unit (v : List (String × ℝ)) (h : ∃ p ∈ v, p.2 ≠ 0) :
    sumSquares (l2_normalize v) = 1 := by
  have hpos := sumSquares_pos v h
  have hnn := sumSquares_nonneg v
  have hmm : Real.sqrt (sumSquares v) * Real.sqrt (sumSquares v) = sumSquares v :=
    Real.mul_self_sqrt hnn
  rw [sumSquares, l2_normalize, List.map_map]
  have hcomp : ((fun kv : String × ℝ => kv.2 * kv.2) ∘
        (fun kv : String × ℝ => (kv.1, kv.2 / Real.sqrt (sumSquares v))))
      = fun kv : String × ℝ => (kv.2 * kv.2) * (Real.sqrt (sumSquares v)
          * Real.sqrt (sumSquares v))⁻¹ := by
    funext kv
    simp only [Function.comp_apply]
    rw [div_mul_div_comm, div_eq_mul_inv]
  rw [hcomp, List.sum_map_mul_right, hmm]
  exact mul_inv_cancel₀ (ne_of_gt hpos)

/-- C6 (witness): a one-component vector with value 2 is nonzero and its
normalization has unit squared sum. -/
theorem l2_normalize_unit_witness :
    (∃ p ∈ [("a", (2 : ℝ))], p.2 ≠ 0) ∧ sumSquares (l2_normalize [("a", (2 : ℝ))]) = 1 :=
  ⟨⟨("a", (2 : ℝ)), by simp, by norm_num⟩,
   l2_normalize_unit _ ⟨("a", (2 : ℝ)), by simp, by norm_num⟩⟩

/-- Counting preserves positivity of the stored counts. -/
theorem bump_pos : ∀ (a : List (String × Nat)) (w : String),
    (∀ q ∈ a, 1 ≤ q.2) → ∀ p ∈ bump a w, 1 ≤ p.2 := by
  intro a
  induction a with
  | nil =>
    intro w _ p hp
    simp only [bump, List.mem_singleton] at hp
    subst hp
    exact le_refl 1
  | cons e rest ih =>
    intro w hall p hp
    obtain ⟨k, v⟩ := e
    by_cases h : k = w
    · rw [bump, if_pos h] at hp
      rcases List.mem_cons.mp hp with rfl | hp
      · have hv := hall (k, v) (List.mem_cons_self _ _)
        exact Nat.le_succ_of_le hv
      · exact hall p (List.mem_cons_of_mem _ hp)
    · rw [bump, if_neg h] at hp
      rcases List.mem_cons.mp hp with rfl | hp
      · exact hall _ (List.mem_cons_self _ _)
      · exact ih w (fun q hq => hall q (List.mem_cons_of_mem _ hq)) p hp

/-- Every count stored by the tokenizer model is at least one. -/
theorem countTokens_pos (tokens : List String) :
    ∀ p ∈ countTokens tokens, 1 ≤ p.2 := by
  rw [countTokens]
  generalize hacc : ([] : List (String × Nat)) = acc
  have hbase : ∀ p ∈ acc, 1 ≤ p.2 := by
    subst hacc
    intro p hp
    cases hp
  clear hacc
  induction tokens generalizing acc with
  | nil => exact hbase
  | cons tok rest ih =>
    simp only [List.foldl_cons]
    exact ih _ (bump_pos acc (sanitize tok) hbase)

/-- One bump adds exactly one to the total stored count. -/
theorem totalCount_bump : ∀ (a : List (String × Nat)) (w : String),
    totalCount (bump a w) = totalCount a + 1 := by
  intro a
  induction a with
  | nil => intro w; rfl
  | cons e rest ih =>
    intro w
    obtain ⟨k, v⟩ := e
    by_cases h : k = w
    · rw [bump, if_pos h]
      simp only [totalCount, List.map_cons, List.sum_cons]
      omega
    · rw [bump, if_neg h]
      simp only [totalCount, List.map_cons, List.sum_cons] at *
      rw [ih w]
      omega

/-- The total count of a document equals its number of tokens. -/
theorem totalCount_countTokens (tokens : List String) :
    totalCount (countTokens tokens) = tokens.length := by
  rw [countTokens]
  generalize hacc : ([] : List (String × Nat)) = acc
  have hbase : totalCount acc = 0 := by subst hacc; rfl
  have : ∀ acc : List (String × Nat),
      totalCount (tokens.foldl (fun a w => bump a (sanitize w)) acc)
        = totalCount acc + tokens.length := by
    clear hbase hacc
    induction tokens with
    | nil => intro acc; simp
    | cons tok rest ih =>
      intro acc
      simp only [List.foldl_cons, List.length_cons, ih (bump acc (sanitize tok)),
        totalCount_bump]
      omega
  rw [this acc, hbase]
  omega

/-- Looking a key up after mapping a function over the stored values. -/
theorem lookup_map_snd {β γ : Type} (f : β → γ) :
    ∀ (l : List (String × β)) (w : String),
      List.lookup w (l.map (fun p => (p.1, f p.2))) = (List.lookup w l).map f := by
  intro l
  induction l with
  | nil => intro w; rfl
  | cons e rest ih =>
    intro w
    obtain ⟨k, v⟩ := e
    by_cases h : w = k
    · simp [List.lookup, h]
    · have hbeq : (w == k) = false := by simp [h]
      simp only [List.map_cons, List.lookup, hbeq]
      exact ih w

/-- C7: in a document with at least one token, the term frequency stored
for a word is its count divided by the sum of all counts of the document,
and every stored term frequency lies between 0 and 1. -/
theorem term_frequency_formula (tokens : List String) (hne : tokens ≠ []) :
    (∀ (w : String) (c : Nat), List.lookup w (countTokens tokens) = some c →
      List.lookup w (termFrequency (countTokens tokens))
        = some ((c : ℝ) / (totalCount (countTokens tokens) : ℝ)))
    ∧ ∀ p ∈ termFrequency (countTokens tokens), 0 ≤ p.2 ∧ p.2 ≤ 1 := by
  have htot : 0 < totalCount (countTokens tokens) := by
    rw [totalCount_countTokens]
    exact List.length_pos.mpr hne
  constructor
  · intro w c hc
    rw [termFrequency,
      lookup_map_snd (fun c : Nat => (c : ℝ) / (totalCount (countTokens tokens) : ℝ)), hc]
    rfl
  · intro p hp
    obtain ⟨q, hq, rfl⟩ := List.mem_map.mp hp
    have h1 : 1 ≤ q.2 := countTokens_pos tokens q hq
    have h2 : q.2 ≤ totalCount (countTokens tokens) :=
      List.le_sum_of_mem (List.mem_map_of_mem Prod.snd hq)
    have htotR : (0 : ℝ) < (totalCount (countTokens tokens) : ℝ) := by
      exact_mod_cast htot
    constructor
    · exact div_nonneg (by positivity) htotR.le
    · rw [div_le_one htotR]
      exact_mod_cast h2

/-- C7 (witness): the one-token document a has term frequency 1 ÷ 1 stored
for its single word. -/
theorem term_frequency_formula_witness :
    (["a"] ≠ ([] : List String))
    ∧ List.lookup "a" (countTokens ["a"]) = some 1
    ∧ List.lookup "a" (termFrequency (countTokens ["a"]))
        = some (((1 : Nat) : ℝ) / (totalCount (countTokens ["a"]) : ℝ)) :=
  ⟨by decide, by decide,
   (term_frequency_formula ["a"] (by decide)).1 "a" 1 (by decide)⟩

/-- Effect of one bump on a lookup. -/
theorem lookup_bump : ∀ (a : List (String × Nat)) (w1 w : String),
    List.lookup w (bump a w1)
      = if w = w1 then some (((List.lookup w a).getD 0) + 1) else List.lookup w a := by
  intro a
  induction a with
  | nil =>
    intro w1 w
    by_cases h : w = w1
    · simp [bump, List.lookup, h]
    · have hbeq : (w == w1) = false := by simp [h]
      simp [bump, List.lookup, hbeq, h]
  | cons e rest ih =>
    intro w1 w
    obtain ⟨k, v⟩ := e
    by_cases hk : k = w1
    · subst hk
      rw [bump, if_pos rfl]
      by_cases h : w = k
      · subst h
        simp [List.lookup]
      · have hbeq : (w == k) = false := by simp [h]
        simp [List.lookup, hbeq, h]
    · rw [bump, if_neg hk]
      by_cases h : w = k
      · subst h
        have hbeq : (w == w) = true := by simp
        simp [List.lookup, hbeq, hk]
      · have hbeq : (w == k) = false := by simp [h]
        simp only [List.lookup, hbeq, ih w1 w]

/-- Folding one document's keys into the counting accumulator raises the
count of a looked-up word by one exactly when the document carries it. -/
theorem lookup_foldBump (w : String) :
    ∀ (l : List (String × Nat)) (acc : List (String × Nat)), (l.map Prod.fst).Nodup →
      List.lookup w (l.foldl (fun a wc => bump a wc.1) acc)
        = if w ∈ l.map Prod.fst then some (((List.lookup w acc).getD 0) + 1)
          else List.lookup w acc := by
  intro l
  induction l with
  | nil =>
    intro acc _
    simp
  | cons e rest ih =>
    intro acc hnd
    obtain ⟨k, v⟩ := e
    simp only [List.map_cons, List.nodup_cons] at hnd
    obtain ⟨hk, hnd1⟩ := hnd
    simp only [List.foldl_cons]
    rw [ih (bump acc k) hnd1]
    by_cases h : w = k
    · subst h
      have hnotin : w ∉ rest.map Prod.fst := hk
      rw [if_neg hnotin, lookup_bump, if_pos rfl]
      simp [List.mem_cons]
    · rw [lookup_bump, if_neg h]
      have hmem : (w ∈ k :: rest.map Prod.fst) ↔ w ∈ rest.map Prod.fst := by
        constructor
        · intro hin
          rcases List.mem_cons.mp hin with heq | hin2
          · exact absurd heq h
          · exact hin2
        · exact List.mem_cons_of_mem _
      simp only [List.map_cons]
      rw [if_congr hmem rfl rfl]

/-- Folding the whole corpus counts, per looked-up word, the number of
documents carrying it. -/
theorem lookup_docFold (w : String) :
    ∀ (corpus : List (String × List (String × Nat))) (acc : List (String × Nat)),
      (∀ doc ∈ corpus, (doc.2.map Prod.fst).Nodup) →
      List.lookup w
          (corpus.foldl (fun acc doc => doc.2.foldl (fun a wc => bump a wc.1) acc) acc)
        = if documentFrequency w corpus = 0 then List.lookup w acc
          else some (((List.lookup w acc).getD 0) + documentFrequency w corpus) := by
  intro corpus
  induction corpus with
  | nil =>
    intro acc _
    simp [documentFrequency]
  | cons doc rest ih =>
    intro acc hnd
    have hdoc : (doc.2.map Prod.fst).Nodup := hnd doc (List.mem_cons_self _ _)
    have hrest : ∀ d ∈ rest, (d.2.map Prod.fst).Nodup :=
      fun d hd => hnd d (List.mem_cons_of_mem _ hd)
    simp only [List.foldl_cons]
    rw [ih _ hrest, lookup_foldBump w doc.2 acc hdoc]
    by_cases hin : w ∈ doc.2.map Prod.fst
    · have hdf : documentFrequency w (doc :: rest) = documentFrequency w rest + 1 := by
        simp [documentFrequency, List.countP_cons, hin]
      rw [hdf]
      simp only [hin, ite_true]
      by_cases h0 : documentFrequency w rest = 0
      · rw [h0, if_pos rfl, if_neg (by omega)]
      · rw [if_neg h0, if_neg (by omega)]
        apply congrArg some
        simp only [Option.getD_some]
        omega
    · have hdf : documentFrequency w (doc :: rest) = documentFrequency w rest := by
        simp [documentFrequency, List.countP_cons, hin]
      rw [hdf]
      simp only [hin, ite_false]

/-- The accumulated per-term document count of the code agrees with the
specification-side documentFrequency. -/
theorem docFrequency_lookup (corpus : List (String × List (String × Nat))) (w : String)
    (hnd : ∀ doc ∈ corpus, (doc.2.map Prod.fst).Nodup)
    (hocc : 0 < documentFrequency w corpus) :
    List.lookup w (docFrequency corpus) = some (documentFrequency w corpus) := by
  rw [docFrequency, lookup_docFold w corpus [] hnd, if_neg (by omega)]
  simp

/-- Lookup form of the stored IDF weight of an occurring term. -/
theorem calc_idf_lookup (corpus : List (String × List (String × Nat))) (w : String)
    (hnd : ∀ doc ∈ corpus, (doc.2.map Prod.fst).Nodup)
    (hocc : 0 < documentFrequency w corpus) :
    List.lookup w (calc_inverse_document_freq corpus)
      = some (Real.log (((corpus.length : ℝ) + 1)
          / ((documentFrequency w corpus : ℝ) + 1)) + 1) := by
  rw [calc_inverse_document_freq,
    lookup_map_snd (fun c : Nat =>
      Real.log (((corpus.length : ℝ) + 1) / ((c : ℝ) + 1)) + 1),
    docFrequency_lookup corpus w hnd hocc]
  rfl

/-- C3: the IDF weight stored for a term occurring in the corpus is exactly
ln((N + 1) / (documentFrequency + 1)) + 1 over the real numbers, with
documentFrequency the number of distinct documents carrying the term, and a
term present in all N documents receives exactly weight 1. -/
theorem idf_formula (corpus : List (String × List (String × Nat))) (w : String)
    (hnd : ∀ doc ∈ corpus, (doc.2.map Prod.fst).Nodup)
    (hocc : 0 < documentFrequency w corpus) :
    List.lookup w (calc_inverse_document_freq corpus)
      = some (Real.log (((corpus.length : ℝ) + 1) / ((documentFrequency w corpus : ℝ) + 1)) + 1)
    ∧ (documentFrequency w corpus = corpus.length →
        List.lookup w (calc_inverse_document_freq corpus) = some 1) := by
  have hmain := calc_idf_lookup corpus w hnd hocc
  refine ⟨hmain, ?_⟩
  intro hall
  rw [hmain, hall, div_self (by positivity), Real.log_one, zero_add]

/-- C3 (witness): in the one-document corpus whose document holds the term
a, the term occurs in every document, and its stored IDF weight is exactly
1. -/
theorem idf_formula_witness :
    (∀ doc ∈ [("d1", [("a", 2)])], ((doc.2.map Prod.fst).Nodup : Prop))
    ∧ 0 < documentFrequency "a" [("d1", [("a", 2)])]
    ∧ List.lookup "a" (calc_inverse_document_freq [("d1", [("a", 2)])]) = some 1 :=
  ⟨by decide, by decide,
   (idf_formula [("d1", [("a", 2)])] "a" (by decide) (by decide)).2 (by decide)⟩

/-! Degenerate cases of the numeric pipeline. -/

/-- Keys after one bump: unchanged when present, appended when absent. -/
theorem keys_bump : ∀ (a : List (String × Nat)) (w : String),
    (bump a w).map Prod.fst
      = if w ∈ a.map Prod.fst then a.map Prod.fst else a.map Prod.fst ++ [w] := by
  intro a
  induction a with
  | nil => intro w; simp [bump]
  | cons e rest ih =>
    intro w
    obtain ⟨k, v⟩ := e
    by_cases h : k = w
    · subst h
      rw [bump, if_pos rfl]
      simp
    · rw [bump, if_neg h]
      simp only [List.map_cons, ih w]
      by_cases hin : w ∈ rest.map Prod.fst
      · rw [if_pos hin, if_pos (List.mem_cons_of_mem _ hin)]
      · rw [if_neg hin, if_neg ?_]
        · simp
        · intro hc
          rcases List.mem_cons.mp hc with heq | hc2
          · exact h heq.symm
          · exact hin hc2

/-- Bumping keeps the keys duplicate-free. -/
theorem bump_keys_nodup (a : List (String × Nat)) (w : String)
    (h : (a.map Prod.fst).Nodup) : ((bump a w).map Prod.fst).Nodup := by
  rw [keys_bump]
  by_cases hin : w ∈ a.map Prod.fst
  · rw [if_pos hin]
    exact h
  · rw [if_neg hin]
    simp [List.nodup_append, h, hin]

/-- The token counter produces duplicate-free keys. -/
theorem countTokens_keys_nodup (tokens : List String) :
    ((countTokens tokens).map Prod.fst).Nodup := by
  rw [countTokens]
  generalize hacc : ([] : List (String × Nat)) = acc
  have hbase : (acc.map Prod.fst).Nodup := by subst hacc; simp
  clear hacc
  induction tokens generalizing acc with
  | nil => exact hbase
  | cons tok rest ih =>
    simp only [List.foldl_cons]
    exact ih _ (bump_keys_nodup acc (sanitize tok) hbase)

/-- Provenance of the entries stored by insertWordScore: the freshly
inserted triple, or an entry already present under the same word. -/
theorem insertWordScore_mem [LinearOrder S] (w1 : String) (k : S) (d : String) :
    ∀ (acc : List (String × BTMap S)), ∀ wm ∈ insertWordScore w1 k d acc, ∀ p ∈ wm.2,
      (wm.1 = w1 ∧ p = (k, d)) ∨ ∃ m0, (wm.1, m0) ∈ acc ∧ p ∈ m0 := by
  intro acc
  induction acc with
  | nil =>
    intro wm hwm p hp
    simp only [insertWordScore, List.mem_singleton] at hwm
    subst hwm
    simp only [List.mem_singleton] at hp
    exact Or.inl ⟨rfl, hp⟩
  | cons e rest ih =>
    intro wm hwm p hp
    obtain ⟨w2, m2⟩ := e
    by_cases h : w2 = w1
    · rw [insertWordScore, if_pos h] at hwm
      rcases List.mem_cons.mp hwm with rfl | hwm
      · rcases mem_btInsert k d m2 p hp with rfl | hp2
        · exact Or.inl ⟨h, rfl⟩
        · exact Or.inr ⟨m2, List.mem_cons_self _ _, hp2⟩
      · exact Or.inr ⟨wm.2, List.mem_cons_of_mem _ (by simpa using hwm), hp⟩
    · rw [insertWordScore, if_neg h] at hwm
      rcases List.mem_cons.mp hwm with rfl | hwm
      · exact Or.inr ⟨m2, List.mem_cons_self _ _, hp⟩
      · rcases ih wm hwm p hp with hl | ⟨m0, hm0, hp0⟩
        · exact Or.inl hl
        · exact Or.inr ⟨m0, List.mem_cons_of_mem _ hm0, hp0⟩

/-- Provenance through one document's fold: a (word, score) pair of the
document with that document as value, or an entry of the accumulator. -/
theorem foldDoc_mem [LinearOrder S] (d : String) :
    ∀ (ws : List (String × S)) (acc : List (String × BTMap S)),
      ∀ wm ∈ ws.foldl (fun a pr => insertWordScore pr.1 pr.2 d a) acc, ∀ p ∈ wm.2,
        ((wm.1, p.1) ∈ ws ∧ p.2 = d) ∨ ∃ m0, (wm.1, m0) ∈ acc ∧ p ∈ m0 := by
  intro ws
  induction ws with
  | nil => intro acc wm hwm p hp; exact Or.inr ⟨wm.2, by simpa using hwm, hp⟩
  | cons pr rest ih =>
    intro acc wm hwm p hp
    simp only [List.foldl_cons] at hwm
    rcases ih (insertWordScore pr.1 pr.2 d acc) wm hwm p hp with ⟨hin, hd⟩ | ⟨m0, hm0, hp0⟩
    · exact Or.inl ⟨List.mem_cons_of_mem _ hin, hd⟩
    · rcases insertWordScore_mem pr.1 pr.2 d acc (wm.1, m0) hm0 p hp0 with ⟨hw, hp1⟩ | hold
      · refine Or.inl ⟨?_, by rw [hp1]⟩
        have : (wm.1, p.1) = pr := by
          rw [hw, hp1]
        rw [this]
        exact List.mem_cons_self _ _
      · exact Or.inr hold

/-- Provenance through the whole inversion fold. -/
theorem buildFold_mem [LinearOrder S] :
    ∀ (tfIdf : List (String × List (String × S))) (acc : List (String × BTMap S)),
      ∀ wm ∈ tfIdf.foldl
          (fun acc dv => dv.2.foldl (fun a pr => insertWordScore pr.1 pr.2 dv.1 a) acc) acc,
        ∀ p ∈ wm.2,
          (∃ dv ∈ tfIdf, (wm.1, p.1) ∈ dv.2 ∧ p.2 = dv.1)
          ∨ ∃ m0, (wm.1, m0) ∈ acc ∧ p ∈ m0 := by
  intro tfIdf
  induction tfIdf with
  | nil => intro acc wm hwm p hp; exact Or.inr ⟨wm.2, by simpa using hwm, hp⟩
  | cons dv rest ih =>
    intro acc wm hwm p hp
    simp only [List.foldl_cons] at hwm
    rcases ih _ wm hwm p hp with ⟨dv2, hdv2, hin, hd⟩ | ⟨m0, hm0, hp0⟩
    · exact Or.inl ⟨dv2, List.mem_cons_of_mem _ hdv2, hin, hd⟩
    · rcases foldDoc_mem dv.1 dv.2 acc (wm.1, m0) hm0 p hp0 with ⟨hin, hd⟩ | hold
      · exact Or.inl ⟨dv, List.mem_cons_self _ _, hin, hd⟩
      · exact Or.inr hold

/-- Every score of the built index is a score of the input vectors. -/
theorem build_search_trie_scores [LinearOrder S]
    (tfIdf : List (String × List (String × S))) :
    ∀ wm ∈ build_search_trie tfIdf, ∀ p ∈ wm.2,
      ∃ dv ∈ tfIdf, (wm.1, p.1) ∈ dv.2 ∧ p.2 = dv.1 := by
  intro wm hwm p hp
  have hwr := build_search_trie_mem tfIdf wm hwm
  rw [buildWordRankings] at hwr
  rcases buildFold_mem tfIdf [] wm hwr p hp with h | ⟨m0, hm0, _⟩
  · exact h
  · cases hm0

/-- Normalizing a vector of positive components yields components in the
half-open unit interval. -/
theorem l2_normalize_pos_le_one (v : List (String × ℝ)) (hpos : ∀ p ∈ v, 0 < p.2) :
    ∀ p ∈ l2_normalize v, 0 < p.2 ∧ p.2 ≤ 1 := by
  intro p hp
  obtain ⟨q, hq, rfl⟩ := List.mem_map.mp hp
  have hx : 0 < q.2 := hpos q hq
  have hsq : q.2 * q.2 ≤ sumSquares v := by
    apply List.single_le_sum _ _ (List.mem_map.mpr ⟨q, hq, rfl⟩)
    intro x hx2
    obtain ⟨kv, _, rfl⟩ := List.mem_map.mp hx2
    exact mul_self_nonneg kv.2
  have hspos : 0 < sumSquares v := lt_of_lt_of_le (mul_self_pos.mpr hx.ne') hsq
  have hnpos : 0 < Real.sqrt (sumSquares v) := Real.sqrt_pos.mpr hspos
  refine ⟨div_pos hx hnpos, ?_⟩
  rw [div_le_one hnpos]
  calc q.2 = Real.sqrt (q.2 * q.2) := (Real.sqrt_mul_self hx.le).symm
    _ ≤ Real.sqrt (sumSquares v) := Real.sqrt_le_sqrt hsq

/-- A term occurring in the corpus receives an IDF weight of at least 1. -/
theorem lookupIdf_ge_one (dwf : List (String × List (String × Nat))) (w : String)
    (hnd : ∀ doc ∈ dwf, (doc.2.map Prod.fst).Nodup)
    (hocc : 0 < documentFrequency w dwf) :
    1 ≤ lookupIdf (calc_inverse_document_freq dwf) w := by
  rw [lookupIdf, calc_idf_lookup dwf w hnd hocc]
  simp only [Option.getD_some]
  have hdfN : documentFrequency w dwf ≤ dwf.length := List.countP_le_length _
  have hln : 0 ≤ Real.log (((dwf.length : ℝ) + 1)
      / ((documentFrequency w dwf : ℝ) + 1)) := by
    apply Real.log_nonneg
    rw [le_div_iff₀ (by positivity)]
    have hc : (documentFrequency w dwf : ℝ) ≤ (dwf.length : ℝ) := by exact_mod_cast hdfN
    linarith
  linarith

/-- Every stored term frequency of a counted document is positive. -/
theorem termFrequency_pos (tokens : List String) :
    ∀ p ∈ termFrequency (countTokens tokens), 0 < p.2 := by
  intro p hp
  obtain ⟨q, hq, rfl⟩ := List.mem_map.mp hp
  have h1 : 1 ≤ q.2 := countTokens_pos tokens q hq
  have h2 : q.2 ≤ totalCount (countTokens tokens) :=
    List.le_sum_of_mem (List.mem_map_of_mem Prod.snd hq)
  have hq2 : (0 : ℝ) < (q.2 : ℝ) := by exact_mod_cast lt_of_lt_of_le Nat.zero_lt_one h1
  have htot : (0 : ℝ) < (totalCount (countTokens tokens) : ℝ) := by
    exact_mod_cast lt_of_lt_of_le Nat.zero_lt_one (le_trans h1 h2)
  exact div_pos hq2 htot

/-- Every raw TF-IDF component computed for a pipeline document is
positive. -/
theorem rawVector_pos (docs : List (String × List String)) (d : String)
    (toks : List String) (hmem : (d, toks) ∈ docs) :
    ∀ p ∈ (termFrequency (countTokens toks)).map
        (fun wt => (wt.1, wt.2
          * lookupIdf (calc_inverse_document_freq (get_document_word_freq docs)) wt.1)),
      0 < p.2 := by
  intro p hp
  obtain ⟨wt, hwt, rfl⟩ := List.mem_map.mp hp
  have htf : 0 < wt.2 := termFrequency_pos toks wt hwt
  have hweq : wt.1 ∈ (countTokens toks).map Prod.fst := by
    obtain ⟨q, hq, heq⟩ := List.mem_map.mp hwt
    rw [← heq]
    exact List.mem_map_of_mem Prod.fst hq
  have hnd : ∀ doc ∈ get_document_word_freq docs, (doc.2.map Prod.fst).Nodup := by
    intro doc hdoc
    obtain ⟨d0, _, rfl⟩ := List.mem_map.mp hdoc
    exact countTokens_keys_nodup d0.2
  have hocc : 0 < documentFrequency wt.1 (get_document_word_freq docs) := by
    rw [documentFrequency]
    apply List.countP_pos_iff.mpr
    refine ⟨(d, countTokens toks), ?_, by simpa using hweq⟩
    have : ((d, toks).1, countTokens (d, toks).2) ∈ get_document_word_freq docs :=
      List.mem_map_of_mem _ hmem
    simpa using this
  have hidf := lookupIdf_ge_one (get_document_word_freq docs) wt.1 hnd hocc
  exact mul_pos htf (lt_of_lt_of_le one_pos hidf)

/-- Every score inserted into the pipeline's index lies in the half-open
unit interval. -/
theorem pipeline_scores_unit (docs : List (String × List String)) :
    ∀ wm ∈ pipelineIndex docs, ∀ p ∈ wm.2, 0 < p.1 ∧ p.1 ≤ 1 := by
  intro wm hwm p hp
  simp only [pipelineIndex] at hwm
  obtain ⟨dv, hdv, hin, -⟩ := build_search_trie_scores _ wm hwm p hp
  obtain ⟨doc0, hdoc0, heq⟩ := List.mem_map.mp hdv
  obtain ⟨dt, hdt, heq2⟩ := List.mem_map.mp hdoc0
  have hdt2 : (dt.1, dt.2) ∈ docs := by
    obtain ⟨a, b⟩ := dt
    exact hdt
  have hposraw := rawVector_pos docs dt.1 dt.2 hdt2
  have hvec : dv.2 = l2_normalize ((termFrequency (countTokens dt.2)).map
      (fun wt => (wt.1, wt.2
        * lookupIdf (calc_inverse_document_freq (get_document_word_freq docs)) wt.1))) := by
    rw [← heq, ← heq2]
  have hres := l2_normalize_pos_le_one _ hposraw (wm.1, p.1) (by rw [← hvec]; exact hin)
  simpa using hres

/-- C10: the division degeneracies are unreachable.  A document's total
token count is zero exactly when its counted word map is empty, which
happens exactly for the empty token list; documents with an empty word map
keep their key and receive an empty normalized vector, so no division is
performed for them; and every score the pipeline inserts into the index is
a real number in the half-open interval (0, 1], so the exact-decimal
conversion of a stored score never meets a non-finite value. -/
theorem degenerate_cases_unreachable :
    (∀ tokens : List String,
        (totalCount (countTokens tokens) = 0 ↔ countTokens tokens = [])
        ∧ (countTokens tokens = [] ↔ tokens = []))
    ∧ (∀ (dwf : List (String × List (String × Nat))) (idf : List (String × ℝ)),
        List.Forall₂ (fun a b => a.1 = b.1 ∧ (a.2 = [] → b.2 = ([] : List (String × ℝ))))
          dwf (calc_tf_idf dwf idf))
    ∧ ∀ docs : List (String × List String),
        (pipelineIndex docs).Forall (fun wm => wm.2.Forall (fun p => 0 < p.1 ∧ p.1 ≤ 1)) := by
  refine ⟨?_, ?_, ?_⟩
  · intro tokens
    have hiff1 : totalCount (countTokens tokens) = 0 ↔ countTokens tokens = [] := by
      constructor
      · intro h0
        by_contra hne
        obtain ⟨p, hp⟩ := List.exists_mem_of_ne_nil _ hne
        have h1 : 1 ≤ p.2 := countTokens_pos tokens p hp
        have h2 : p.2 ≤ totalCount (countTokens tokens) :=
          List.le_sum_of_mem (List.mem_map_of_mem Prod.snd hp)
        omega
      · intro h
        rw [totalCount, h]
        rfl
    refine ⟨hiff1, ?_, ?_⟩
    · intro h
      have h0 : totalCount (countTokens tokens) = 0 := hiff1.mpr h
      rw [totalCount_countTokens] at h0
      exact List.eq_nil_of_length_eq_zero h0
    · intro h
      rw [h]
      rfl
  · intro dwf idf
    rw [calc_tf_idf, List.forall₂_map_right_iff, List.forall₂_same]
    intro a _
    refine ⟨rfl, ?_⟩
    intro h
    rw [h]
    rfl
  · intro docs
    rw [List.forall_iff_forall_mem]
    intro wm hwm
    rw [List.forall_iff_forall_mem]
    intro p hp
    exact pipeline_scores_unit docs wm hwm p hp

/-- C10 (witness): the degeneracy dichotomy applied to the one-token
document a. -/
theorem degenerate_cases_unreachable_witness :
    (totalCount (countTokens ["a"]) = 0 ↔ countTokens ["a"] = [])
    ∧ (countTokens ["a"] = [] ↔ ["a"] = ([] : List String)) :=
  degenerate_cases_unreachable.1 ["a"]

end EnronSearch
